import Mathlib

/-
Shallow embedding of the RunningAverageU16 library (RunningAverage.h /
RunningAverage.cpp, version 0.4.5, uint16_t variant): a fixed-capacity
circular buffer maintaining a running average, min and max over a stream
of 16-bit unsigned samples.

Modelling conventions:
* Every class field is `uint16_t` (see RunningAverage.h), so machine values
  are represented as `Nat` together with explicit reduction `% 65536`
  wherever `uint16_t` arithmetic can wrap: the `_sum` field, the write
  index, and the `uint16_t` offset and index locals of the queries.
* Method locals that the .cpp keeps as `float` are a different matter and
  are NOT wrapped: the local accumulator of `getAverageLast`
  (`float _sum = 0;`) never wraps at `2^16`.  A `float` represents every
  integer below `2^24` exactly, so that accumulator is modelled as an
  exact natural-number sum; every theorem about `getAverageLast` carries a
  bound that keeps the walked sum below `2^16 ≤ 2^24`, where model and
  program agree exactly (for a sum `S < 2^24` the float quotient `S / cnt`
  truncated to `uint16_t` on return equals natural floor division: the
  rounding error of the division is below the distance `≥ 1/cnt` from
  `S/cnt` to the next integer whenever `S < 2^24`).
* `getAverageSubset` is declared `float` in the header as well as the
  .cpp (parameterised and returned in float); only its index-access
  behaviour is modelled, not its value.
* `_array` is a `List Nat` of length `_size`; a successful allocation is
  assumed (`malloc` nondeterminism is environment behaviour, and the inert
  zero-capacity buffer is represented by `_size = 0`).  An in-bounds C++
  read `_array[i]` is `List.getD _array i 0`; which indices are actually
  dereferenced is recorded separately by the `...AccessIdxs` functions, so
  out-of-bounds accesses can be reasoned about explicitly.
* `return NAN;` in a `uint16_t`-returning function yields 0 on the AVR and
  ARM Arduino targets (float-to-unsigned conversion of NaN), so the
  "no data" sentinel is the constant `noData = 0`.
* The C++ field `_partial` is called `_partialSize` here (`partial` is a
  Lean keyword); `clear`'s zeroing loop over all `_size` slots is written
  as `List.replicate _size 0`.
The floating-point statistics (`getStandardDeviation`, `getStandardError`)
and the value of the float-returning `getAverageSubset` are outside the
scope of this development and are not modelled.
-/

/-- `2^16`, the modulus of all `uint16_t` arithmetic. -/
def U : Nat := 65536

/-- The "no data" sentinel: `return NAN;` converted to `uint16_t` yields 0
on the library's targets. -/
def noData : Nat := 0

/-- The state of a `RunningAverage` object: the protected fields of the
class in RunningAverage.h (all `uint16_t`, plus the backing array). -/
@[ext]
structure RunningAverage where
  _size : Nat
  _count : Nat
  _index : Nat
  /-- the C++ field `_partial`: the logical window size -/
  _partialSize : Nat
  _sum : Nat
  _array : List Nat
  _min : Nat
  _max : Nat
deriving Repr, DecidableEq

/-- `RunningAverage::RunningAverage(const uint16_t size)` with the
allocation succeeding: `_size = size`, `_partial = _size`, a `size`-slot
array, then `clear()` (which zeroes the counters and every slot). -/
def mkRA (size : Nat) : RunningAverage :=
  { _size := size, _count := 0, _index := 0, _partialSize := size,
    _sum := 0, _array := List.replicate size 0, _min := 0, _max := 0 }

/-- `RunningAverage::clear()`: zeroes `_count`, `_index`, `_sum`, `_min`,
`_max` and (by the descending loop) every one of the `_size` slots. -/
def clear (s : RunningAverage) : RunningAverage :=
  { s with _count := 0, _index := 0, _sum := 0, _min := 0, _max := 0,
           _array := List.replicate s._size 0 }

/-- `RunningAverage::addValue(const uint16_t value)`: subtract the slot at
`_index` from `_sum` (uint16 wraparound), overwrite it, add the written
slot back, advance `_index` wrapping at `_partial`, update `_min`/`_max`
(first sample sets both, later samples only on strict inequality), and
increment `_count` while it is below `_partial`. -/
def addValue (s : RunningAverage) (value : Nat) : RunningAverage :=
  let sum1 := (s._sum + U - s._array.getD s._index 0) % U
  let arr1 := s._array.set s._index value
  let sum2 := (sum1 + arr1.getD s._index 0) % U
  let idx1 := (s._index + 1) % U
  let idx2 := if idx1 = s._partialSize then 0 else idx1
  let mn := if s._count = 0 then value
            else if value < s._min then value else s._min
  let mx := if s._count = 0 then value
            else if value < s._min then s._max
            else if s._max < value then value else s._max
  let cnt := if s._count < s._partialSize then s._count + 1 else s._count
  { s with _sum := sum2, _array := arr1, _index := idx2,
           _min := mn, _max := mx, _count := cnt }

/-- The `for (uint16_t i = s; i > 0; i--) addValue(value);` loop of
`fillValue`: `k` successive `addValue value` calls. -/
def addN (s : RunningAverage) (value : Nat) : Nat → RunningAverage
  | 0 => s
  | k + 1 => addValue (addN s value k) value

/-- `RunningAverage::fillValue(value, number)`: `clear()`, then `addValue
value` exactly `min number _partial` times. -/
def fillValue (s : RunningAverage) (value number : Nat) : RunningAverage :=
  let m := if s._partialSize < number then s._partialSize else number
  addN (clear s) value m

/-- `RunningAverage::setPartial(const uint16_t partial)`: install the new
window size (0 or anything above `_size` resets it to `_size`), then
`clear()`. -/
def setPartial (s : RunningAverage) (p : Nat) : RunningAverage :=
  let w := if p = 0 ∨ s._size < p then s._size else p
  clear { s with _partialSize := w }

/-- The recomputation loop of `getAverage`: `_sum = 0; for (i < _count)
_sum += _array[i];` with uint16 wraparound at each step. -/
def getAverageSum (s : RunningAverage) : Nat :=
  (s._array.take s._count).foldl (fun a x => (a + x) % U) 0

/-- `RunningAverage::getAverage()`: the returned value together with the
state after the call (the call rewrites the `_sum` field). Empty buffer:
the sentinel, state untouched. -/
def getAverage (s : RunningAverage) : Nat × RunningAverage :=
  if s._count = 0 then (noData, s)
  else
    let s1 := { s with _sum := getAverageSum s }
    (s1._sum / s1._count, s1)

/-- `RunningAverage::getFastAverage()`: `_sum / _count`, 0 if empty. -/
def getFastAverage (s : RunningAverage) : Nat :=
  if s._count = 0 then 0 else s._sum / s._count

/-- `RunningAverage::getMinInBuffer()`: scan of slots `1..(_count-1)`
starting from `_array[0]`; 0 if empty. -/
def getMinInBuffer (s : RunningAverage) : Nat :=
  if s._count = 0 then 0
  else ((s._array.take s._count).drop 1).foldl
    (fun m x => if x < m then x else m) (s._array.getD 0 0)

/-- `RunningAverage::getMaxInBuffer()`: scan of slots `1..(_count-1)`
starting from `_array[0]`; 0 if empty. -/
def getMaxInBuffer (s : RunningAverage) : Nat :=
  if s._count = 0 then 0
  else ((s._array.take s._count).drop 1).foldl
    (fun m x => if m < x then x else m) (s._array.getD 0 0)

/-- `RunningAverage::getMin()`: the `_min` accessor (observed minimum). -/
def getMin (s : RunningAverage) : Nat := s._min

/-- `RunningAverage::getMax()`: the `_max` accessor (observed maximum). -/
def getMax (s : RunningAverage) : Nat := s._max

/-- `RunningAverage::getElement(index)`: `_array[index]` behind an
empty-buffer guard only — the subscript itself is unchecked. -/
def getElement (s : RunningAverage) (index : Nat) : Nat :=
  if s._count = 0 then 0 else s._array.getD index 0

/-- The physical index `getValue` dereferences: `_pos = position + _index`
(uint16 wraparound), minus `_count` once when `_pos >= _count`. -/
def getValuePos (s : RunningAverage) (position : Nat) : Nat :=
  let pos := (position + s._index) % U
  if s._count ≤ pos then pos - s._count else pos

/-- `RunningAverage::getValue(position)`: 0 when empty or
`position >= _count`, otherwise the slot at `getValuePos`. -/
def getValue (s : RunningAverage) (position : Nat) : Nat :=
  if s._count = 0 then 0
  else if s._count ≤ position then 0
  else s._array.getD (getValuePos s position) 0

/-- One backward step of the `getAverageLast` family:
`if (idx == 0) idx = _size; idx--;`. -/
def lastIdx (size idx : Nat) : Nat :=
  (if idx = 0 then size else idx) - 1

/-- The summing loop of `getAverageLast`: `cnt` backward steps from `idx`
(wrapping at `size`), accumulating into `acc`.  The C++ accumulator is a
local `float _sum`, which does not wrap at `2^16`; it is exact for sums
below `2^24`, which is what the theorems below guarantee, so the model
accumulates exactly. -/
def walkSumAux (arr : List Nat) (size : Nat) : Nat → Nat → Nat → Nat
  | 0, _, acc => acc
  | c + 1, idx, acc =>
    walkSumAux arr size c (lastIdx size idx)
      (acc + arr.getD (lastIdx size idx) 0)

/-- `RunningAverage::getAverageLast(count)`: clamp `count` to `_count`,
sentinel if the clamped count is 0, otherwise the backward-walk float sum
(walking with index wraparound at `_size`) divided by the clamped count
and truncated to `uint16_t` on return.  For a walked sum below `2^24` the
float sum is exact and the truncated float quotient is exactly the
natural floor division modelled here (see the preamble); the average of
`uint16_t` samples always fits the return type. -/
def getAverageLast (s : RunningAverage) (count : Nat) : Nat :=
  let cnt := if s._count < count then s._count else count
  if cnt = 0 then noData
  else walkSumAux s._array s._size cnt s._index 0 / cnt

/-- The scanning loop of `getMinInBufferLast`: reads the slot at `idx`,
then steps backward, `cnt` times. -/
def scanBackMin (arr : List Nat) (size : Nat) : Nat → Nat → Nat → Nat
  | 0, _, m => m
  | c + 1, idx, m =>
    scanBackMin arr size c (lastIdx size idx)
      (if arr.getD idx 0 < m then arr.getD idx 0 else m)

/-- The scanning loop of `getMaxInBufferLast`. -/
def scanBackMax (arr : List Nat) (size : Nat) : Nat → Nat → Nat → Nat
  | 0, _, m => m
  | c + 1, idx, m =>
    scanBackMax arr size c (lastIdx size idx)
      (if m < arr.getD idx 0 then arr.getD idx 0 else m)

/-- `RunningAverage::getMinInBufferLast(count)`: clamp, sentinel on 0,
else pre-decrement the cursor and scan `cnt` slots backward. -/
def getMinInBufferLast (s : RunningAverage) (count : Nat) : Nat :=
  let cnt := if s._count < count then s._count else count
  if cnt = 0 then noData
  else
    let i0 := lastIdx s._size s._index
    scanBackMin s._array s._size cnt i0 (s._array.getD i0 0)

/-- `RunningAverage::getMaxInBufferLast(count)`. -/
def getMaxInBufferLast (s : RunningAverage) (count : Nat) : Nat :=
  let cnt := if s._count < count then s._count else count
  if cnt = 0 then noData
  else
    let i0 := lastIdx s._size s._index
    scanBackMax s._array s._size cnt i0 (s._array.getD i0 0)

/-- The index `getAverageSubset` dereferences at loop iteration `i`:
`idx = _index + start + i` (a `uint16_t` local, so with wraparound), then
`while (idx >= _partial) idx -= _partial`.  `getAverageSubset` itself is a
float-valued function (header and .cpp agree); only its storage accesses
are modelled. -/
def subsetIdx (s : RunningAverage) (start i : Nat) : Nat :=
  ((s._index + start + i) % U) % s._partialSize

/-- The sum of the `_count` logically valid slots (physical slots
`0..(_count-1)`), as an unbounded natural number. -/
def validSum (s : RunningAverage) : Nat :=
  Finset.sum (Finset.range s._count) (fun j => s._array.getD j 0)

/-- The logical content of the window, oldest first: the valid prefix of
the storage rotated so that the slot `_index` (the next to be overwritten,
i.e. the oldest sample once the buffer is full) comes first. -/
def logicalWindow (s : RunningAverage) : List Nat :=
  (s._array.take s._count).rotate s._index

/-- The physical indices at which `getElement` dereferences `_array`:
behind the empty-buffer guard the raw argument, unchecked. -/
def getElementAccessIdxs (s : RunningAverage) (index : Nat) : List Nat :=
  if s._count = 0 then [] else [index]

/-- The physical indices at which `getValue` dereferences `_array`. -/
def getValueAccessIdxs (s : RunningAverage) (position : Nat) : List Nat :=
  if s._count = 0 then []
  else if s._count ≤ position then []
  else [getValuePos s position]

/-- The backward-walk index trace of the `getAverageLast` loop: the slot
read at each of the `cnt` iterations. -/
def lastWalkIdxs (size : Nat) : Nat → Nat → List Nat
  | 0, _ => []
  | c + 1, idx => lastIdx size idx :: lastWalkIdxs size c (lastIdx size idx)

/-- The physical indices at which `getAverageLast` dereferences `_array`. -/
def getAverageLastAccessIdxs (s : RunningAverage) (count : Nat) : List Nat :=
  let cnt := if s._count < count then s._count else count
  if cnt = 0 then [] else lastWalkIdxs s._size cnt s._index

/-- The index trace of the `getMinInBufferLast` loop: the slot is read at
the top of each iteration, the cursor then steps backward. -/
def scanBackIdxs (size : Nat) : Nat → Nat → List Nat
  | 0, _ => []
  | c + 1, idx => idx :: scanBackIdxs size c (lastIdx size idx)

/-- The physical indices at which `getMinInBufferLast` dereferences
`_array`: the pre-decremented cursor (initial read), then the loop. -/
def getMinInBufferLastAccessIdxs (s : RunningAverage) (count : Nat) : List Nat :=
  let cnt := if s._count < count then s._count else count
  if cnt = 0 then []
  else lastIdx s._size s._index :: scanBackIdxs s._size cnt (lastIdx s._size s._index)

/-- The physical indices at which `getMaxInBufferLast` dereferences
`_array` (same trace as the min variant). -/
def getMaxInBufferLastAccessIdxs (s : RunningAverage) (count : Nat) : List Nat :=
  getMinInBufferLastAccessIdxs s count

/-- The physical indices at which `getAverageSubset` dereferences
`_array`. -/
def getAverageSubsetAccessIdxs (s : RunningAverage) (start count : Nat) : List Nat :=
  if s._count = 0 then []
  else
    let cnt := if count < s._count then count else s._count
    (List.range cnt).map (subsetIdx s start)

/-- The representation invariant of a `RunningAverage` state.  It packages
what construction guarantees and every mutation preserves: field ranges
(`uint16_t` bounds), the window geometry (`_count ≤ _partial ≤ _size`, the
cursor position relative to `_count`), the never-written slots being zero,
and the running sum being the uint16 reduction of the true sum of the
valid slots. -/
def RAInv (s : RunningAverage) : Prop :=
  (s._array.length = s._size ∧
   s._size < U ∧ s._partialSize < U ∧ s._index < U ∧
   s._sum < U ∧ s._min < U ∧ s._max < U) ∧
  (s._partialSize ≤ s._size ∧
   (s._size ≠ 0 → 1 ≤ s._partialSize) ∧
   s._count ≤ s._partialSize) ∧
  ((s._count < s._partialSize → s._index = s._count) ∧
   (s._count = s._partialSize → s._partialSize ≠ 0 → s._index < s._partialSize)) ∧
  ((∀ j < s._size, s._count ≤ j → s._array.getD j 0 = 0) ∧
   (∀ x ∈ s._array, x < U) ∧
   s._sum = validSum s % U ∧
   s._min ≤ s._max)

instance (s : RunningAverage) : Decidable (RAInv s) := by
  unfold RAInv
  infer_instance

/-- The states a `RunningAverage` object can be in: freshly constructed,
or the result of one of the mutating operations (`addValue`, `fillValue`,
`clear`, `setPartial`, and `getAverage`, which rewrites `_sum`) on a
reachable state.  The side conditions are the `uint16_t` ranges of the
arguments. -/
inductive Reachable : RunningAverage → Prop
  | mk (size : Nat) (h : size < U) : Reachable (mkRA size)
  | add {s : RunningAverage} (v : Nat) (hs : Reachable s) (hv : v < U) :
      Reachable (addValue s v)
  | fill {s : RunningAverage} (v n : Nat) (hs : Reachable s) (hv : v < U)
      (hn : n < U) : Reachable (fillValue s v n)
  | reset {s : RunningAverage} (hs : Reachable s) : Reachable (clear s)
  | setP {s : RunningAverage} (p : Nat) (hs : Reachable s) (hp : p < U) :
      Reachable (setPartial s p)
  | avg {s : RunningAverage} (hs : Reachable s) : Reachable (getAverage s).2

/-- The construction-time constraints on the geometry fields (capacity and
window size), which `clear` does not touch. -/
def ConfigOk (s : RunningAverage) : Prop :=
  s._partialSize ≤ s._size ∧ (s._size ≠ 0 → 1 ≤ s._partialSize) ∧
    s._size < U ∧ s._partialSize < U

/-- The C2 scenario state: capacity 3, window 3, samples 1, 2, 3, 4. -/
def sAddFour : RunningAverage :=
  addValue (addValue (addValue (addValue (mkRA 3) 1) 2) 3) 4

/-- A reachable state whose true valid-slot sum (80000) exceeds the
`uint16_t` range: two samples of 40000 in a capacity-2 buffer. -/
def sOverflow : RunningAverage :=
  addValue (addValue (mkRA 2) 40000) 40000

/-- A reachable state with `windowSize < capacity` after the cursor
wrapped: capacity 2, `setPartial 1`, one sample 5. -/
def sPartialBug : RunningAverage :=
  addValue (setPartial (mkRA 2) 1) 5

/-- A small full reachable buffer: capacity 1, one sample 7. -/
def sOneFull : RunningAverage := addValue (mkRA 1) 7

/-- A sequence of `addValue` calls, one per list element (left to
right). -/
def addList (s : RunningAverage) (vs : List Nat) : RunningAverage :=
  vs.foldl addValue s

/-- The alternating sample sequence 0, 1, 0, 1, … of length `m`. -/
def altList (m : Nat) : List Nat := (List.range m).map (fun j => j % 2)

/-- The capacity-40001 buffer pre-filled with 40001 zero samples. -/
def fillZeroState : RunningAverage := fillValue (mkRA 40001) 0 40001

/-- 30000 alternating samples on top of `fillZeroState`: a reachable
full buffer with the cursor at 30000. -/
def bigState : RunningAverage := addList fillZeroState (altList 30000)

lemma U_pos : 0 < U := by decide

lemma getD_set_self (l : List Nat) {i : Nat} (v : Nat) (h : i < l.length) :
    (l.set i v).getD i 0 = v := by
  rw [List.getD_eq_getElem?_getD, List.getElem?_set_self h]
  rfl

lemma getD_set_ne (l : List Nat) {i j : Nat} (v : Nat) (h : i ≠ j) :
    (l.set i v).getD j 0 = l.getD j 0 := by
  rw [List.getD_eq_getElem?_getD, List.getElem?_set_ne h,
    ← List.getD_eq_getElem?_getD]

lemma getD_of_le (l : List Nat) {j : Nat} (h : l.length ≤ j) :
    l.getD j 0 = 0 := by
  rw [List.getD_eq_getElem?_getD, List.getElem?_eq_none h]
  rfl

lemma getD_mem_lt (l : List Nat) {j : Nat} (hj : j < l.length) {B : Nat}
    (h : ∀ x ∈ l, x < B) : l.getD j 0 < B := by
  rw [List.getD_eq_getElem l 0 hj]
  exact h _ (List.getElem_mem hj)

lemma foldl_mod_add (l : List Nat) : ∀ a, a < U →
    l.foldl (fun a x => (a + x) % U) a = (a + l.sum) % U := by
  induction l with
  | nil => intro a ha; simp [Nat.mod_eq_of_lt ha]
  | cons x t ih =>
    intro a ha
    rw [List.foldl_cons, ih _ (Nat.mod_lt _ U_pos), Nat.mod_add_mod,
      List.sum_cons]
    ring_nf

lemma sum_take_getD (l : List Nat) : ∀ c,
    (l.take c).sum = Finset.sum (Finset.range c) (fun j => l.getD j 0) := by
  induction l with
  | nil => intro c; simp [List.getD_nil]
  | cons x t ih =>
    intro c
    cases c with
    | zero => simp
    | succ c =>
      rw [List.take_succ_cons, List.sum_cons, ih c, Finset.sum_range_succ']
      simp [List.getD_cons_succ, List.getD_cons_zero, Nat.add_comm]

lemma validSum_eq_sum_take (s : RunningAverage) :
    validSum s = (s._array.take s._count).sum :=
  (sum_take_getD _ _).symm

lemma getAverageSum_eq (s : RunningAverage) :
    getAverageSum s = validSum s % U := by
  rw [getAverageSum, foldl_mod_add _ 0 U_pos, validSum_eq_sum_take,
    Nat.zero_add]

lemma addValue_size (s : RunningAverage) (v : Nat) :
    (addValue s v)._size = s._size := rfl

lemma addValue_psize (s : RunningAverage) (v : Nat) :
    (addValue s v)._partialSize = s._partialSize := rfl

lemma addValue_array (s : RunningAverage) (v : Nat) :
    (addValue s v)._array = s._array.set s._index v := rfl

lemma addValue_count (s : RunningAverage) (v : Nat) :
    (addValue s v)._count =
      if s._count < s._partialSize then s._count + 1 else s._count := rfl

lemma addValue_index (s : RunningAverage) (v : Nat) :
    (addValue s v)._index =
      if (s._index + 1) % U = s._partialSize then 0 else (s._index + 1) % U := rfl

lemma addValue_min (s : RunningAverage) (v : Nat) :
    (addValue s v)._min =
      if s._count = 0 then v else if v < s._min then v else s._min := rfl

lemma addValue_max (s : RunningAverage) (v : Nat) :
    (addValue s v)._max =
      if s._count = 0 then v
      else if v < s._min then s._max
      else if s._max < v then v else s._max := rfl

lemma addValue_sum (s : RunningAverage) (v : Nat) :
    (addValue s v)._sum =
      (((s._sum + U - s._array.getD s._index 0) % U) +
        (s._array.set s._index v).getD s._index 0) % U := rfl

/-- `addValue` preserves the representation invariant. -/
lemma inv_addValue {s : RunningAverage} {v : Nat} (h : RAInv s) (hv : v < U) :
    RAInv (addValue s v) := by
  obtain ⟨⟨hlen, hszU, hwU, hiU, hsumU, hminU, hmaxU⟩, ⟨hws, hw1, hcw⟩,
    ⟨hlt, heq⟩, ⟨hzero, hmem, hsum, hmm⟩⟩ := h
  by_cases hw0 : s._partialSize = 0
  · -- degenerate zero-capacity buffer: the array is empty, nothing changes
    -- except the cursor
    have hsz0 : s._size = 0 := by
      by_contra hne
      have := hw1 hne
      omega
    have harr : s._array = [] := List.eq_nil_of_length_eq_zero (by omega)
    have hc0 : s._count = 0 := by omega
    refine ⟨⟨?_, hszU, hwU, ?_, ?_, ?_, ?_⟩, ⟨hws, hw1, ?_⟩, ⟨?_, ?_⟩,
      ⟨?_, ?_, ?_, ?_⟩⟩
    · rw [addValue_array, harr]; simpa using hsz0.symm
    · rw [addValue_index]
      split
      · exact U_pos
      · exact Nat.mod_lt _ U_pos
    · rw [addValue_sum, harr]
      exact Nat.mod_lt _ U_pos
    · rw [addValue_min, hc0]; simpa using hv
    · rw [addValue_max, hc0]; simpa using hv
    · rw [addValue_count, addValue_psize, hc0, hw0]; simp
    · rw [addValue_count, addValue_psize, hc0, hw0]; simp
    · rw [addValue_psize, hw0]
      intro _ h2
      exact absurd rfl h2
    · intro j hj
      rw [addValue_size] at hj
      omega
    · rw [addValue_array, harr]
      intro x hx
      simp at hx
    · have hs0 : s._sum = 0 := by
        rw [hsum]
        simp [validSum, hc0]
      show (addValue s v)._sum = validSum (addValue s v) % U
      rw [addValue_sum, harr, hs0]
      unfold validSum
      rw [addValue_count, addValue_array, harr, hc0, hw0]
      simp
    · rw [addValue_min, addValue_max, hc0]
      simp
  · -- real buffer: the window size is at least 1
    have hvalid : s._sum = validSum s % U := hsum
    have hcP : s._count < s._partialSize ∨ s._count = s._partialSize :=
      Nat.lt_or_eq_of_le hcw
    -- in both cases the write lands strictly inside the array
    have hi_lt : s._index < s._array.length := by
      rcases hcP with hc | hc
      · have := hlt hc; omega
      · have := heq hc hw0; omega
    have hA : s._array.getD s._index 0 < U := getD_mem_lt _ hi_lt hmem
    have hset_len : ((s._array.set s._index v)).length = s._array.length :=
      List.length_set _ _ _
    have hget_self : (s._array.set s._index v).getD s._index 0 = v :=
      getD_set_self _ _ hi_lt
    refine ⟨⟨?_, hszU, hwU, ?_, ?_, ?_, ?_⟩, ⟨hws, hw1, ?_⟩, ⟨?_, ?_⟩,
      ⟨?_, ?_, ?_, ?_⟩⟩
    · rw [addValue_array, addValue_size]; omega
    · rw [addValue_index]
      split
      · exact U_pos
      · exact Nat.mod_lt _ U_pos
    · rw [addValue_sum]
      exact Nat.mod_lt _ U_pos
    · rw [addValue_min]
      split
      · exact hv
      · split <;> omega
    · rw [addValue_max]
      split
      · exact hv
      · split
        · exact hmaxU
        · split <;> omega
    · rw [addValue_count, addValue_psize]
      split <;> omega
    · -- count < partial after the call implies the cursor equals the count
      rw [addValue_count, addValue_index, addValue_psize]
      rcases hcP with hc | hc
      · have hieq := hlt hc
        have h1 : (s._index + 1) % U = s._index + 1 :=
          Nat.mod_eq_of_lt (by omega)
        rw [if_pos hc, h1, hieq]
        intro hlt2
        rw [if_neg (by omega)]
      · rw [if_neg (by omega)]
        omega
    · -- full buffer keeps the cursor below the window size
      rw [addValue_count, addValue_index, addValue_psize]
      rcases hcP with hc | hc
      · have hieq := hlt hc
        have h1 : (s._index + 1) % U = s._index + 1 :=
          Nat.mod_eq_of_lt (by omega)
        rw [if_pos hc, h1, hieq]
        intro hc2 _
        rw [if_pos (by omega)]
        omega
      · have hilt := heq hc hw0
        have h1 : (s._index + 1) % U = s._index + 1 :=
          Nat.mod_eq_of_lt (by omega)
        rw [if_neg (by omega), h1]
        intro _ _
        split
        · omega
        · omega
    · -- slots at or past the (new) count are still zero
      intro j hj hcj
      rw [addValue_size] at hj
      rw [addValue_count] at hcj
      rw [addValue_array]
      have hne : s._index ≠ j := by
        rcases hcP with hc | hc
        · have := hlt hc
          split at hcj <;> omega
        · have := heq hc hw0
          split at hcj <;> omega
      rw [getD_set_ne _ _ hne]
      exact hzero j hj (by split at hcj <;> omega)
    · rw [addValue_array]
      intro x hx
      rcases List.mem_or_eq_of_mem_set hx with hx | hx
      · exact hmem x hx
      · omega
    · -- the running sum stays the uint16 reduction of the valid-slot sum
      rw [addValue_sum, Nat.mod_add_mod, hget_self]
      rcases hcP with hc | hc
      · -- growing phase: the overwritten slot was a zero pad
        have hieq := hlt hc
        have hA0 : s._array.getD s._index 0 = 0 := by
          rw [hieq]
          exact hzero _ (by omega) (le_refl _)
        have hvs : validSum (addValue s v) = validSum s + v := by
          unfold validSum
          rw [addValue_count, addValue_array, if_pos hc,
            Finset.sum_range_succ]
          rw [hieq] at hi_lt ⊢
          rw [getD_set_self _ _ hi_lt]
          congr 1
          refine Finset.sum_congr rfl ?_
          intro j hj
          rw [Finset.mem_range] at hj
          exact getD_set_ne _ _ (by omega)
        rw [hvs, hA0, hvalid, Nat.sub_zero]
        have e1 : validSum s % U + U + v = validSum s % U + v + U := by omega
        rw [e1, Nat.add_mod_right, Nat.mod_add_mod]
      · -- full phase: the overwritten slot is swapped out of the sum
        set A := s._array.getD s._index 0 with hAdef
        have hmemA : s._index ∈ Finset.range s._count := by
          rw [Finset.mem_range]
          have := heq hc hw0
          omega
        have hsplit_old : validSum s =
            Finset.sum (Finset.range s._count \ {s._index})
              (fun j => s._array.getD j 0) + A := by
          unfold validSum
          exact Finset.sum_eq_sum_diff_singleton_add hmemA _
        have hsplit_new : validSum (addValue s v) =
            Finset.sum (Finset.range s._count \ {s._index})
              (fun j => s._array.getD j 0) + v := by
          unfold validSum
          rw [addValue_count, addValue_array, if_neg (by omega)]
          rw [Finset.sum_eq_sum_diff_singleton_add hmemA]
          rw [getD_set_self _ _ hi_lt]
          congr 1
          refine Finset.sum_congr rfl ?_
          intro j hj
          rw [Finset.mem_sdiff, Finset.mem_singleton] at hj
          exact getD_set_ne _ _ (Ne.symm hj.2)
        have hvs_new : validSum (addValue s v) + A = validSum s + v := by
          omega
        have hAle : A ≤ validSum s := by omega
        have e1 : s._sum + U - A + v = s._sum + (U + v - A) := by omega
        rw [e1, hvalid, Nat.mod_add_mod]
        have e2 : validSum s + (U + v - A) = validSum (addValue s v) + U := by
          omega
        rw [e2, Nat.add_mod_right]
    · rw [addValue_min, addValue_max]
      by_cases hc : s._count = 0
      · rw [if_pos hc, if_pos hc]
      · rw [if_neg hc, if_neg hc]
        by_cases h1 : v < s._min
        · rw [if_pos h1, if_pos h1]
          omega
        · rw [if_neg h1, if_neg h1]
          by_cases h2 : s._max < v
          · rw [if_pos h2]
            omega
          · rw [if_neg h2]
            exact hmm

lemma configOk_of_inv {s : RunningAverage} (h : RAInv s) : ConfigOk s := by
  obtain ⟨⟨_, hszU, hwU, _, _, _, _⟩, ⟨hws, hw1, _⟩, _, _⟩ := h
  exact ⟨hws, hw1, hszU, hwU⟩

lemma getD_replicate0 (n j : Nat) : (List.replicate n (0 : Nat)).getD j 0 = 0 := by
  rcases Nat.lt_or_ge j n with h | h
  · rw [List.getD_eq_getElem _ _ (by simpa using h)]
    exact List.getElem_replicate _ _
  · exact getD_of_le _ (by simpa using h)

/-- `clear` establishes the invariant from the geometry constraints
alone. -/
lemma inv_clear {s : RunningAverage} (h : ConfigOk s) : RAInv (clear s) := by
  obtain ⟨hws, hw1, hszU, hwU⟩ := h
  refine ⟨⟨?_, ?_, ?_, ?_, ?_, ?_, ?_⟩, ⟨?_, ?_, ?_⟩, ⟨?_, ?_⟩,
    ⟨?_, ?_, ?_, ?_⟩⟩
  · simp [clear]
  · exact hszU
  · exact hwU
  · exact U_pos
  · exact U_pos
  · exact U_pos
  · exact U_pos
  · exact hws
  · exact hw1
  · exact Nat.zero_le _
  · intro _
    rfl
  · intro h1 h2
    show (0 : Nat) < _
    omega
  · intro j _ _
    exact getD_replicate0 _ _
  · intro x hx
    rw [List.eq_of_mem_replicate hx]
    exact U_pos
  · show (0 : Nat) = validSum (clear s) % U
    simp [validSum, clear]
  · exact le_refl _

lemma inv_mkRA (size : Nat) (h : size < U) : RAInv (mkRA size) := by
  have hconf : ConfigOk (mkRA size) := ⟨le_refl _, fun _ => by
    simp [mkRA] at *
    omega, h, h⟩
  have : clear (mkRA size) = mkRA size := by
    simp [clear, mkRA]
  rw [← this]
  exact inv_clear hconf

lemma inv_addN {s : RunningAverage} {v : Nat} (h : RAInv s) (hv : v < U) :
    ∀ k, RAInv (addN s v k)
  | 0 => h
  | k + 1 => inv_addValue (inv_addN h hv k) hv

lemma inv_fillValue {s : RunningAverage} {v n : Nat} (h : RAInv s)
    (hv : v < U) : RAInv (fillValue s v n) :=
  inv_addN (inv_clear (configOk_of_inv h)) hv _

lemma inv_setPartial {s : RunningAverage} {p : Nat} (h : RAInv s) :
    RAInv (setPartial s p) := by
  obtain ⟨hws, hw1, hszU, hwU⟩ := configOk_of_inv h
  have hrw : setPartial s p =
      clear { s with _partialSize :=
        if p = 0 ∨ s._size < p then s._size else p } := rfl
  rw [hrw]
  apply inv_clear
  refine ⟨?_, ?_, hszU, ?_⟩
  · show (if p = 0 ∨ s._size < p then s._size else p) ≤ s._size
    split
    · exact le_refl _
    · next hcond =>
        push_neg at hcond
        exact hcond.2
  · show s._size ≠ 0 → 1 ≤ (if p = 0 ∨ s._size < p then s._size else p)
    intro h0
    split
    · omega
    · next hcond =>
        push_neg at hcond
        omega
  · show (if p = 0 ∨ s._size < p then s._size else p) < U
    split
    · exact hszU
    · next hcond =>
        push_neg at hcond
        omega

/-- On an invariant state `getAverage` recomputes exactly the stored
`_sum`, so the post-state equals the pre-state. -/
lemma getAverage_state_eq {s : RunningAverage} (h : RAInv s) :
    (getAverage s).2 = s := by
  obtain ⟨_, _, _, ⟨_, _, hsum, _⟩⟩ := h
  rw [getAverage]
  split
  · rfl
  · simp only
    rw [getAverageSum_eq, ← hsum]

lemma inv_getAverage {s : RunningAverage} (h : RAInv s) :
    RAInv (getAverage s).2 := by
  rw [getAverage_state_eq h]
  exact h

/-- Every reachable state satisfies the representation invariant. -/
theorem reach_inv {s : RunningAverage} (h : Reachable s) : RAInv s := by
  induction h with
  | mk size hsz => exact inv_mkRA size hsz
  | add v _ hv ih => exact inv_addValue ih hv
  | fill v n _ hv _ ih => exact inv_fillValue ih hv
  | reset _ ih => exact inv_clear (configOk_of_inv ih)
  | setP p _ _ ih => exact inv_setPartial ih
  | avg _ ih => exact inv_getAverage ih

/-- Closed form of the `fillValue` loop on a freshly cleared buffer:
after `j ≤ _partial` calls of `addValue v`, the first `j` slots hold `v`,
the cursor sits at `j` (0 if the window just filled), and the running sum
is `v * j` reduced mod `2^16`. -/
lemma addN_fill_closed {s : RunningAverage} (hconf : ConfigOk s) (v : Nat)
    (hv : v < U) :
    ∀ j, j ≤ s._partialSize →
      addN (clear s) v j =
        { _size := s._size, _count := j,
          _index := if j = s._partialSize then 0 else j,
          _partialSize := s._partialSize,
          _sum := v * j % U,
          _array := List.replicate j v ++ List.replicate (s._size - j) 0,
          _min := if j = 0 then 0 else v,
          _max := if j = 0 then 0 else v } := by
  obtain ⟨hws, hw1, hszU, hwU⟩ := hconf
  intro j
  induction j with
  | zero =>
    intro _
    show clear s = _
    apply RunningAverage.ext <;> simp [clear]
  | succ j ih =>
    intro hj1
    have hjP : j < s._partialSize := by omega
    have hjs : j < s._size := by omega
    have hrec : addN (clear s) v (j + 1) = addValue (addN (clear s) v j) v :=
      rfl
    rw [hrec, ih (by omega)]
    have hsz_split : s._size - j = (s._size - (j + 1)) + 1 := by omega
    have harr0 : List.replicate (s._size - j) (0 : Nat) =
        0 :: List.replicate (s._size - (j + 1)) 0 := by
      rw [hsz_split, List.replicate_succ]
    have hset : (List.replicate j v ++ List.replicate (s._size - j) (0 : Nat)).set j v =
        List.replicate (j + 1) v ++ List.replicate (s._size - (j + 1)) 0 := by
      rw [List.set_append, if_neg (by simp), List.length_replicate,
        Nat.sub_self, harr0, List.replicate_succ']
      simp [List.set_cons_zero]
    apply RunningAverage.ext <;>
      simp only [addValue_size, addValue_count, addValue_index,
        addValue_psize, addValue_sum, addValue_array, addValue_min,
        addValue_max]
    · -- count
      show (if j < s._partialSize then j + 1 else j) = j + 1
      rw [if_pos hjP]
    · -- index
      show (if ((if j = s._partialSize then 0 else j) + 1) % U = s._partialSize
            then 0 else ((if j = s._partialSize then 0 else j) + 1) % U) =
          if j + 1 = s._partialSize then 0 else j + 1
      rw [if_neg (Nat.ne_of_lt hjP), Nat.mod_eq_of_lt (by omega)]
    · -- sum
      show (((v * j % U + U -
          (List.replicate j v ++ List.replicate (s._size - j) 0).getD
            (if j = s._partialSize then 0 else j) 0) % U) +
          ((List.replicate j v ++ List.replicate (s._size - j) 0).set
            (if j = s._partialSize then 0 else j) v).getD
            (if j = s._partialSize then 0 else j) 0) % U = v * (j + 1) % U
      rw [if_neg (Nat.ne_of_lt hjP)]
      have hold0 : (List.replicate j v ++
          List.replicate (s._size - j) (0 : Nat)).getD j 0 = 0 := by
        rw [List.getD_append_right _ _ _ _ (by simp), List.length_replicate,
          Nat.sub_self]
        exact getD_replicate0 _ _
      have hnew : ((List.replicate j v ++
          List.replicate (s._size - j) (0 : Nat)).set j v).getD j 0 = v := by
        rw [hset,
          List.getD_append _ _ _ _ (by rw [List.length_replicate]; omega),
          List.getD_eq_getElem _ _ (by rw [List.length_replicate]; omega)]
        exact List.getElem_replicate _ _
      rw [hold0, hnew, Nat.sub_zero, Nat.add_mod_right,
        Nat.mod_mod_of_dvd _ dvd_rfl, Nat.mod_add_mod, Nat.mul_succ]
    · -- array
      show (List.replicate j v ++ List.replicate (s._size - j) 0).set
          (if j = s._partialSize then 0 else j) v =
        List.replicate (j + 1) v ++ List.replicate (s._size - (j + 1)) 0
      rw [if_neg (Nat.ne_of_lt hjP)]
      exact hset
    · -- min
      rcases Nat.eq_zero_or_pos j with hj0 | hj0
      · simp [hj0]
      · have hne : j ≠ 0 := by omega
        simp [hne]
    · -- max
      rcases Nat.eq_zero_or_pos j with hj0 | hj0
      · simp [hj0]
      · have hne : j ≠ 0 := by omega
        simp [hne]

/-- Claim C1 (counterexample to the claim as stated): in the reachable
state `sOverflow` the field `_sum` holds 14464 (the uint16 wraparound of
80000) while the sum of the valid slots is 80000, so `_sum` does not equal
the sum of the valid slots. -/
theorem claim_C1_counterexample :
    Reachable sOverflow ∧ sOverflow._sum = 14464 ∧
      validSum sOverflow = 80000 ∧ sOverflow._sum ≠ validSum sOverflow :=
  ⟨Reachable.add 40000 (Reachable.add 40000 (Reachable.mk 2 (by decide))
      (by decide)) (by decide),
    by decide, by decide, by decide⟩

/-- Claim C1 (amended): after every mutating operation (hence in every
reachable state) `_sum` equals the sum of the `_count` logically valid
slots reduced modulo `2^16` — the `uint16_t` field wraps, so equality on
the nose fails once the true sum reaches 65536. -/
theorem claim_C1_sum_invariant {s : RunningAverage} (h : Reachable s) :
    s._sum = validSum s % U := by
  obtain ⟨_, _, _, ⟨_, _, hsum, _⟩⟩ := reach_inv h
  exact hsum

/-- Witness for C1's amended theorem at a concrete reachable state. -/
theorem claim_C1_witness : sOverflow._sum = validSum sOverflow % U :=
  claim_C1_sum_invariant
    (Reachable.add 40000 (Reachable.add 40000 (Reachable.mk 2 (by decide))
      (by decide)) (by decide))

/-- Claim C2: on a fresh capacity-3 window-3 buffer, adding 1, 2, 3, 4
leaves physical storage `[4, 2, 3]`, write index 1, fast average 3,
observed min 1, observed max 4, buffer min 2 and buffer max 4. -/
theorem claim_C2_scenario :
    sAddFour._array = [4, 2, 3] ∧ sAddFour._index = 1 ∧
    getFastAverage sAddFour = 3 ∧ getMin sAddFour = 1 ∧
    getMax sAddFour = 4 ∧ getMinInBuffer sAddFour = 2 ∧
    getMaxInBuffer sAddFour = 4 := by
  decide

/-- Claim C3 (counterexample to the claim as stated): on the non-inert
fresh capacity-2 buffer, `fillValue 40000 2` followed by
`getFastAverage` returns 7232, not 40000 — the `uint16_t` running sum
wraps at 65536. -/
theorem claim_C3_counterexample :
    Reachable (mkRA 2) ∧ 1 ≤ (mkRA 2)._size ∧ (1 : Nat) ≤ 2 ∧
      getFastAverage (fillValue (mkRA 2) 40000 2) = 7232 ∧
      (7232 : Nat) ≠ 40000 :=
  ⟨Reachable.mk 2 (by decide), by decide, by decide, by decide, by decide⟩

/-- Claim C3 (amended): `fillValue v k` followed by `getFastAverage`
returns `v` on a non-inert reachable buffer whenever `k ≥ 1`, provided
the filled sum `v * min k windowSize` stays below `2^16` (otherwise the
`uint16_t` running sum wraps). -/
theorem claim_C3_fill_average {s : RunningAverage} {v k : Nat}
    (h : Reachable s) (hsz : 1 ≤ s._size) (hk : 1 ≤ k)
    (hbound : v * min k s._partialSize < U) :
    getFastAverage (fillValue s v k) = v := by
  have hconf := configOk_of_inv (reach_inv h)
  have hP1 : 1 ≤ s._partialSize := hconf.2.1 (by omega)
  have hmin1 : 1 ≤ min k s._partialSize := by
    rw [Nat.le_min]
    exact ⟨hk, hP1⟩
  have hv : v < U := by
    have : v ≤ v * min k s._partialSize :=
      Nat.le_mul_of_pos_right v hmin1
    omega
  have hm : fillValue s v k =
      addN (clear s) v (if s._partialSize < k then s._partialSize else k) :=
    rfl
  have hmeq : (if s._partialSize < k then s._partialSize else k) =
      min k s._partialSize := by
    rw [Nat.min_def]
    split <;> split <;> omega
  rw [hm, hmeq,
    addN_fill_closed hconf v hv (min k s._partialSize) (Nat.min_le_right _ _)]
  show (if min k s._partialSize = 0 then (0 : Nat)
        else v * min k s._partialSize % U / min k s._partialSize) = v
  rw [if_neg (by omega), Nat.mod_eq_of_lt hbound,
    Nat.mul_div_cancel v (by omega)]

/-- Witness for C3's amended theorem: filling a capacity-1 buffer with
one copy of 5 gives fast average 5. -/
theorem claim_C3_witness : getFastAverage (fillValue (mkRA 1) 5 1) = 5 :=
  claim_C3_fill_average (Reachable.mk 1 (by decide)) (by decide) (by decide)
    (by decide)

/-- Claim C6: `addValue` sets both `_min` and `_max` to the sample when
`_count = 0` (first sample since reset); on every later call `_min`
changes only if the sample is strictly smaller and `_max` only if it is
strictly larger (ties change nothing). -/
theorem claim_C6_minmax_update {s : RunningAverage} {v : Nat}
    (h : Reachable s) (hv : v < U) :
    (s._count = 0 → (addValue s v)._min = v ∧ (addValue s v)._max = v) ∧
    (s._count ≠ 0 →
      (addValue s v)._min = (if v < s._min then v else s._min) ∧
      (addValue s v)._max = (if s._max < v then v else s._max)) := by
  obtain ⟨_, _, _, ⟨_, _, _, hmm⟩⟩ := reach_inv h
  constructor
  · intro hc
    rw [addValue_min, addValue_max, if_pos hc, if_pos hc]
    exact ⟨rfl, rfl⟩
  · intro hc
    rw [addValue_min, addValue_max, if_neg hc, if_neg hc]
    refine ⟨rfl, ?_⟩
    by_cases h1 : v < s._min
    · rw [if_pos h1, if_neg (by omega)]
    · rw [if_neg h1]

/-- Witness for C6 at concrete reachable states: a first sample (9 into a
fresh buffer) sets both extremes, and a tie (7 again into `sOneFull`)
changes neither. -/
theorem claim_C6_witness :
    ((addValue (mkRA 2) 9)._min = 9 ∧ (addValue (mkRA 2) 9)._max = 9) ∧
      (addValue sOneFull 7)._min = (if 7 < sOneFull._min then 7 else sOneFull._min) ∧
      (addValue sOneFull 7)._max = (if sOneFull._max < 7 then 7 else sOneFull._max) :=
  ⟨(claim_C6_minmax_update (Reachable.mk 2 (by decide)) (by decide)).1 rfl,
   (claim_C6_minmax_update
      (Reachable.add 7 (Reachable.mk 1 (by decide)) (by decide))
      (by decide)).2 (by decide)⟩

/-- Claim C9: after `clear`, and after `setPartial` with any argument,
the fields `_count`, `_index`, `_sum`, `_min`, `_max` are all zero and
every storage slot holds zero. -/
theorem claim_C9_reset_zeroes (s : RunningAverage) (p : Nat) :
    ((clear s)._count = 0 ∧ (clear s)._index = 0 ∧ (clear s)._sum = 0 ∧
      (clear s)._min = 0 ∧ (clear s)._max = 0 ∧
      (clear s)._array = List.replicate s._size 0) ∧
    ((setPartial s p)._count = 0 ∧ (setPartial s p)._index = 0 ∧
      (setPartial s p)._sum = 0 ∧ (setPartial s p)._min = 0 ∧
      (setPartial s p)._max = 0 ∧
      (setPartial s p)._array = List.replicate s._size 0) :=
  ⟨⟨rfl, rfl, rfl, rfl, rfl, rfl⟩, ⟨rfl, rfl, rfl, rfl, rfl, rfl⟩⟩

/-- Claim C10: on every reachable state with at least one sample,
`getAverage` returns the same value as `getFastAverage`, and the `_sum`
it rewrites comes back equal to the incrementally maintained one, so the
post-state equals the pre-state. -/
theorem claim_C10_average_eq_fast {s : RunningAverage} (h : Reachable s)
    (hc : s._count ≠ 0) :
    (getAverage s).1 = getFastAverage s ∧ (getAverage s).2 = s := by
  have hinv := reach_inv h
  refine ⟨?_, getAverage_state_eq hinv⟩
  obtain ⟨_, _, _, ⟨_, _, hsum, _⟩⟩ := hinv
  rw [getAverage]
  rw [if_neg hc]
  show getAverageSum s / s._count = getFastAverage s
  rw [getAverageSum_eq, ← hsum, getFastAverage, if_neg hc]

/-- Witness for C10 at the concrete reachable state `sOneFull`. -/
theorem claim_C10_witness :
    (getAverage sOneFull).1 = getFastAverage sOneFull ∧
      (getAverage sOneFull).2 = sOneFull :=
  claim_C10_average_eq_fast
    (Reachable.add 7 (Reachable.mk 1 (by decide)) (by decide)) (by decide)

/-- Claim C5 (evaluation at the failing input): in the reachable state
`sPartialBug` (capacity 2, window 1, one sample) the single most recent
sample is 5 — `getValue 0` returns it — yet `getAverageLast 1` walks
backward wrapping at `_size` instead of the window size, reads the
cleared slot 1 and returns 0. -/
theorem claim_C5_wrap_divergence :
    Reachable sPartialBug ∧ sPartialBug._count = 1 ∧
      sPartialBug._partialSize = 1 ∧ sPartialBug._size = 2 ∧
      getValue sPartialBug 0 = 5 ∧ getAverageLast sPartialBug 1 = 0 ∧
      (0 : Nat) ≠ 5 :=
  ⟨Reachable.add 5 (Reachable.setP 1 (Reachable.mk 2 (by decide))
      (by decide)) (by decide),
    by decide, by decide, by decide, by decide, by decide, by decide⟩

/-- Claim C4 (counterexample to the claim as stated, exhibiting both
failure modes): `sPartialBug` is full (`_count = _partial = 1`), yet
`getAverageLast _partial` returns 0 while `getFastAverage` returns 5 —
the backward walk wraps at `_size = 2` and lands on a cleared slot.  And
`sOverflow` is full with `_partial = _size = 2`, yet `getAverageLast
_partial` returns 40000 (exact float sum 80000, divided by 2) while
`getFastAverage` returns 7232 (the wrapped `uint16_t` field 14464,
divided by 2). -/
theorem claim_C4_counterexample :
    (Reachable sPartialBug ∧ sPartialBug._count = sPartialBug._partialSize ∧
      getAverageLast sPartialBug sPartialBug._partialSize = 0 ∧
      getFastAverage sPartialBug = 5 ∧ (0 : Nat) ≠ 5) ∧
    (Reachable sOverflow ∧ sOverflow._count = sOverflow._partialSize ∧
      sOverflow._partialSize = sOverflow._size ∧
      getAverageLast sOverflow sOverflow._partialSize = 40000 ∧
      getFastAverage sOverflow = 7232 ∧ (40000 : Nat) ≠ 7232) :=
  ⟨⟨Reachable.add 5 (Reachable.setP 1 (Reachable.mk 2 (by decide))
      (by decide)) (by decide),
    by decide, by decide, by decide, by decide⟩,
   ⟨Reachable.add 40000 (Reachable.add 40000 (Reachable.mk 2 (by decide))
      (by decide)) (by decide),
    by decide, by decide, by decide, by decide, by decide⟩⟩

lemma walk_interval (arr : List Nat) (n : Nat) :
    ∀ c idx acc, c ≤ idx → idx ≤ n →
      walkSumAux arr n c idx acc =
        acc + Finset.sum (Finset.Ico (idx - c) idx)
          (fun j => arr.getD j 0) := by
  intro c
  induction c with
  | zero =>
    intro idx acc _ _
    simp [walkSumAux, Finset.Ico_self]
  | succ c ih =>
    intro idx acc hc hn
    have hidx1 : idx ≠ 0 := by omega
    have hlast : lastIdx n idx = idx - 1 := by
      rw [lastIdx, if_neg hidx1]
    show walkSumAux arr n c (lastIdx n idx)
        (acc + arr.getD (lastIdx n idx) 0) = _
    rw [hlast, ih (idx - 1) _ (by omega) (by omega)]
    have hsplit : Finset.sum (Finset.Ico (idx - (c + 1)) idx)
        (fun j => arr.getD j 0) =
        Finset.sum (Finset.Ico (idx - 1 - c) (idx - 1))
          (fun j => arr.getD j 0) + arr.getD (idx - 1) 0 := by
      have h1 : idx = (idx - 1) + 1 := by omega
      have h2 : idx - (c + 1) = idx - 1 - c := by omega
      rw [h2]
      conv_lhs => rw [h1]
      exact Finset.sum_Ico_succ_top (by omega) _
    rw [hsplit]
    omega

lemma walk_zero_eq_n (arr : List Nat) (n c acc : Nat) :
    walkSumAux arr n c 0 acc = walkSumAux arr n c n acc := by
  cases c with
  | zero => rfl
  | succ c => simp [walkSumAux, lastIdx]

lemma walk_peel (arr : List Nat) (n : Nat) :
    ∀ a b idx acc, a ≤ idx → idx ≤ n →
      walkSumAux arr n (a + b) idx acc =
        walkSumAux arr n b (idx - a)
          (acc + Finset.sum (Finset.Ico (idx - a) idx)
            (fun j => arr.getD j 0)) := by
  intro a
  induction a with
  | zero =>
    intro b idx acc _ _
    simp [Finset.Ico_self]
  | succ a ih =>
    intro b idx acc ha hn
    have hidx1 : idx ≠ 0 := by omega
    have hlast : lastIdx n idx = idx - 1 := by
      rw [lastIdx, if_neg hidx1]
    have hstep : walkSumAux arr n (a + 1 + b) idx acc =
        walkSumAux arr n (a + b) (idx - 1)
          (acc + arr.getD (idx - 1) 0) := by
      have h0 : a + 1 + b = (a + b) + 1 := by omega
      rw [h0]
      show walkSumAux arr n (a + b) (lastIdx n idx)
          (acc + arr.getD (lastIdx n idx) 0) = _
      rw [hlast]
    have ha1 : a ≤ idx - 1 := by omega
    have hn1 : idx - 1 ≤ n := by omega
    have hih := ih b (idx - 1) (acc + arr.getD (idx - 1) 0) ha1 hn1
    rw [hstep, hih]
    have h1 : idx - 1 - a = idx - (a + 1) := by omega
    rw [h1]
    congr 1
    have hsplit : Finset.sum (Finset.Ico (idx - (a + 1)) idx)
        (fun j => arr.getD j 0) =
        Finset.sum (Finset.Ico (idx - (a + 1)) (idx - 1))
          (fun j => arr.getD j 0) + arr.getD (idx - 1) 0 := by
      have h2 := @Finset.sum_Ico_succ_top Nat _ (idx - (a + 1)) (idx - 1)
        (by omega) (fun j => arr.getD j 0)
      have h3 : idx - 1 + 1 = idx := by omega
      rw [h3] at h2
      exact h2
    rw [hsplit]
    omega

/-- Walking `n` backward steps from any cursor position `idx ≤ n` over a
cycle of length `n` sums every slot `0..n-1` exactly once. -/
lemma walkSum_full (arr : List Nat) (n idx : Nat) (hidx : idx ≤ n) :
    walkSumAux arr n n idx 0 =
      Finset.sum (Finset.range n) (fun j => arr.getD j 0) := by
  have h1 : idx + (n - idx) = n := by omega
  have h2 := walk_peel arr n idx (n - idx) idx 0 (le_refl _) hidx
  rw [h1] at h2
  rw [h2, Nat.sub_self, Nat.zero_add, walk_zero_eq_n,
    walk_interval arr n (n - idx) n _ (by omega) (le_refl _)]
  have h3 : n - (n - idx) = idx := by omega
  rw [h3, Finset.sum_Ico_consecutive _ (Nat.zero_le idx) hidx,
    ← Finset.range_eq_Ico]

/-- Claim C4 (amended): once the buffer is full, `getAverageLast
windowSize` returns the same value as `getFastAverage` provided the
window spans the whole capacity (`_partial = _size`) and the window sum is
below `2^16`.  Both provisos are forced by the counterexample: with
`_partial < _size` the backward walk wraps at `_size` and reads cleared
slots, and once the window sum reaches `2^16` the `uint16_t` field `_sum`
that `getFastAverage` divides has wrapped while the local float
accumulator of `getAverageLast` has not. -/
theorem claim_C4_averageLast_eq_fast {s : RunningAverage}
    (h : Reachable s) (hfull : s._count = s._partialSize)
    (hps : s._partialSize = s._size) (hvU : validSum s < U) :
    getAverageLast s s._partialSize = getFastAverage s := by
  obtain ⟨⟨hlen, hszU, hwU, hiU, hsumU, _, _⟩, ⟨hws, hw1, hcw⟩, ⟨hlt, heq⟩,
    ⟨hzero, hmem, hsum, _⟩⟩ := reach_inv h
  rcases Nat.eq_zero_or_pos s._partialSize with hP0 | hP1
  · rw [getAverageLast, getFastAverage]
    simp [hfull, hP0, noData]
  · have hPn0 : s._partialSize ≠ 0 := by omega
    have hlt2 := heq hfull hPn0
    have hidx : s._index ≤ s._size := by omega
    rw [getAverageLast]
    show (if (if s._count < s._partialSize then s._count else s._partialSize)
          = 0 then noData
        else walkSumAux s._array s._size
          (if s._count < s._partialSize then s._count else s._partialSize)
          s._index 0 /
          (if s._count < s._partialSize then s._count else s._partialSize)) =
      getFastAverage s
    have hcnt : (if s._count < s._partialSize then s._count
        else s._partialSize) = s._size := by
      rw [if_neg (by omega)]
      omega
    rw [hcnt]
    rw [if_neg (by omega)]
    rw [walkSum_full s._array s._size s._index hidx]
    have hvs : Finset.sum (Finset.range s._size) (fun j => s._array.getD j 0) =
        validSum s := by
      rw [validSum, hfull, hps]
    rw [hvs, getFastAverage, if_neg (by omega), hsum,
      Nat.mod_eq_of_lt hvU, hfull, hps]

/-- Witness for C4's amended theorem at the concrete full buffer
`sOneFull` (capacity = window = 1, window sum 7). -/
theorem claim_C4_witness :
    getAverageLast sOneFull sOneFull._partialSize = getFastAverage sOneFull :=
  claim_C4_averageLast_eq_fast
    (Reachable.add 7 (Reachable.mk 1 (by decide)) (by decide))
    (by decide) (by decide) (by decide)

lemma lastIdx_lt {n idx : Nat} (hn : 1 ≤ n) (hidx : idx ≤ n) :
    lastIdx n idx < n := by
  rw [lastIdx]
  split <;> omega

lemma lastWalkIdxs_bound {n : Nat} (hn : 1 ≤ n) :
    ∀ c idx, idx ≤ n → ∀ j ∈ lastWalkIdxs n c idx, j < n := by
  intro c
  induction c with
  | zero =>
    intro idx _ j hj
    simp [lastWalkIdxs] at hj
  | succ c ih =>
    intro idx hidx j hj
    rw [lastWalkIdxs] at hj
    rcases List.mem_cons.mp hj with hj | hj
    · rw [hj]
      exact lastIdx_lt hn hidx
    · exact ih (lastIdx n idx) (Nat.le_of_lt (lastIdx_lt hn hidx)) j hj

lemma scanBackIdxs_bound {n : Nat} :
    ∀ c idx, idx < n → ∀ j ∈ scanBackIdxs n c idx, j < n := by
  intro c
  induction c with
  | zero =>
    intro idx _ j hj
    simp [scanBackIdxs] at hj
  | succ c ih =>
    intro idx hidx j hj
    rw [scanBackIdxs] at hj
    rcases List.mem_cons.mp hj with hj | hj
    · omega
    · exact ih (lastIdx n idx) (lastIdx_lt (by omega) (by omega)) j hj

/-- On an invariant state with at least one sample, the cursor never
exceeds the count. -/
lemma index_le_count {s : RunningAverage} (h : RAInv s) :
    s._count ≠ 0 → s._index ≤ s._count := by
  obtain ⟨_, ⟨_, _, hcw⟩, ⟨hlt, heq⟩, _⟩ := h
  intro hc
  rcases Nat.lt_or_eq_of_le hcw with hlt2 | heq2
  · rw [hlt hlt2]
  · have := heq heq2 (by omega)
    omega

/-- The physical index `getValue` dereferences stays below `_count` on
every invariant state, for every in-range position — even when the
`uint16_t` offset `position + _index` wraps. -/
lemma getValuePos_lt {s : RunningAverage} (h : RAInv s) {p : Nat}
    (hp : p < s._count) : getValuePos s p < s._count := by
  have hic : s._index ≤ s._count := index_le_count h (by omega)
  rw [getValuePos]
  have hle : (p + s._index) % U ≤ p + s._index := Nat.mod_le _ _
  split <;> omega

/-- Claim C7 (amended): on every reachable state, all storage accesses of
`getValue`, `getAverageLast`, `getMinInBufferLast`, `getMaxInBufferLast`
and `getAverageSubset` fall inside the allocated `_size` slots for all
arguments (counts are clamped, out-of-range positions return a sentinel
without touching the array); `getElement`, however, stays in bounds only
for `index < _size` — the raw subscript is unchecked. -/
theorem claim_C7_access_bounds {s : RunningAverage} (h : Reachable s) :
    (∀ p j, j ∈ getValueAccessIdxs s p → j < s._size) ∧
    (∀ c j, j ∈ getAverageLastAccessIdxs s c → j < s._size) ∧
    (∀ c j, j ∈ getMinInBufferLastAccessIdxs s c → j < s._size) ∧
    (∀ c j, j ∈ getMaxInBufferLastAccessIdxs s c → j < s._size) ∧
    (∀ st c j, j ∈ getAverageSubsetAccessIdxs s st c → j < s._size) ∧
    (∀ i, i < s._size → ∀ j, j ∈ getElementAccessIdxs s i → j < s._size) := by
  have hinv := reach_inv h
  obtain ⟨⟨hlen, _, _, _, _, _, _⟩, ⟨hws, hw1, hcw⟩, ⟨hlt, heq⟩, _⟩ := hinv
  have hcount_size : s._count ≤ s._size := le_trans hcw hws
  refine ⟨?_, ?_, ?_, ?_, ?_, ?_⟩
  · -- getValue
    intro p j hj
    rw [getValueAccessIdxs] at hj
    by_cases hc : s._count = 0
    · rw [if_pos hc] at hj
      simp at hj
    · rw [if_neg hc] at hj
      by_cases hp : s._count ≤ p
      · rw [if_pos hp] at hj
        simp at hj
      · rw [if_neg hp] at hj
        have := getValuePos_lt (reach_inv h) (show p < s._count by omega)
        simp at hj
        omega
  · -- getAverageLast
    intro c j hj
    rw [getAverageLastAccessIdxs] at hj
    by_cases hc : (if s._count < c then s._count else c) = 0
    · rw [if_pos hc] at hj
      simp at hj
    · rw [if_neg hc] at hj
      have hcnt_count : (if s._count < c then s._count else c) ≤ s._count := by
        split <;> omega
      have hc1 : s._count ≠ 0 := by omega
      have hidx : s._index ≤ s._size := by
        have := index_le_count (reach_inv h) hc1
        omega
      exact lastWalkIdxs_bound (by omega) _ s._index hidx j hj
  · -- getMinInBufferLast
    intro c j hj
    rw [getMinInBufferLastAccessIdxs] at hj
    by_cases hc : (if s._count < c then s._count else c) = 0
    · rw [if_pos hc] at hj
      simp at hj
    · rw [if_neg hc] at hj
      have hcnt_count : (if s._count < c then s._count else c) ≤ s._count := by
        split <;> omega
      have hc1 : s._count ≠ 0 := by omega
      have hsz1 : 1 ≤ s._size := by omega
      have hidx : s._index ≤ s._size := by
        have := index_le_count (reach_inv h) hc1
        omega
      have hi0 : lastIdx s._size s._index < s._size := lastIdx_lt hsz1 hidx
      rcases List.mem_cons.mp hj with hj | hj
      · omega
      · exact scanBackIdxs_bound _ _ hi0 j hj
  · -- getMaxInBufferLast (same trace)
    intro c j hj
    rw [getMaxInBufferLastAccessIdxs, getMinInBufferLastAccessIdxs] at hj
    by_cases hc : (if s._count < c then s._count else c) = 0
    · rw [if_pos hc] at hj
      simp at hj
    · rw [if_neg hc] at hj
      have hcnt_count : (if s._count < c then s._count else c) ≤ s._count := by
        split <;> omega
      have hc1 : s._count ≠ 0 := by omega
      have hsz1 : 1 ≤ s._size := by omega
      have hidx : s._index ≤ s._size := by
        have := index_le_count (reach_inv h) hc1
        omega
      have hi0 : lastIdx s._size s._index < s._size := lastIdx_lt hsz1 hidx
      rcases List.mem_cons.mp hj with hj | hj
      · omega
      · exact scanBackIdxs_bound _ _ hi0 j hj
  · -- getAverageSubset
    intro st c j hj
    rw [getAverageSubsetAccessIdxs] at hj
    by_cases hc : s._count = 0
    · rw [if_pos hc] at hj
      simp at hj
    · rw [if_neg hc] at hj
      have hP1 : 1 ≤ s._partialSize := by omega
      rcases List.mem_map.mp hj with ⟨k, _, hk⟩
      rw [← hk, subsetIdx]
      have := Nat.mod_lt ((s._index + st + k) % U) (show 0 < s._partialSize by omega)
      omega
  · -- getElement
    intro i hi j hj
    rw [getElementAccessIdxs] at hj
    by_cases hc : s._count = 0
    · rw [if_pos hc] at hj
      simp at hj
    · rw [if_neg hc] at hj
      simp at hj
      omega

/-- Claim C7 (counterexample to the claim as stated): on the reachable
one-slot state `sOneFull`, `getElement 5` dereferences physical index 5,
which is outside the single allocated slot. -/
theorem claim_C7_counterexample :
    Reachable sOneFull ∧ getElementAccessIdxs sOneFull 5 = [5] ∧
      sOneFull._size = 1 ∧ ¬ (5 < sOneFull._size) :=
  ⟨Reachable.add 7 (Reachable.mk 1 (by decide)) (by decide),
    by decide, by decide, by decide⟩

/-- Witness for C7's amended theorem: the single slot `getAverageLast 1`
reads on `sOneFull` is in bounds. -/
theorem claim_C7_witness : (0 : Nat) < sOneFull._size :=
  (claim_C7_access_bounds
    (Reachable.add 7 (Reachable.mk 1 (by decide)) (by decide))).2.1 1 0
    (by decide)

lemma rotate_getD (l : List Nat) (i p : Nat) (hp : p < l.length) :
    (l.rotate i).getD p 0 = l.getD ((p + i) % l.length) 0 := by
  have hlen0 : 0 < l.length := by omega
  have h1 : p < (l.rotate i).length := by
    rw [List.length_rotate]
    exact hp
  rw [List.getD_eq_getElem _ _ h1,
    List.getD_eq_getElem _ _ (Nat.mod_lt _ hlen0)]
  have h2 := List.get_rotate l i ⟨p, h1⟩
  simpa [List.get_eq_getElem] using h2

lemma getD_take (l : List Nat) {c j : Nat} (hj : j < c) :
    (l.take c).getD j 0 = l.getD j 0 := by
  rcases Nat.lt_or_ge j l.length with hlen | hlen
  · have h1 : j < (l.take c).length := by
      rw [List.length_take]
      exact lt_min hj hlen
    rw [List.getD_eq_getElem _ _ h1, List.getD_eq_getElem _ _ hlen,
      List.getElem_take]
  · have h2 : (l.take c).length ≤ j := by
      rw [List.length_take]
      exact le_trans (min_le_right _ _) hlen
    rw [getD_of_le _ h2, getD_of_le _ hlen]

/-- Claim C8 (amended): on every reachable state, `getValue position`
returns 0 when the buffer is empty or `position ≥ _count`, and otherwise
the `position`-th oldest element of the logical window — provided the
`uint16_t` offset `position + _index` does not wrap (i.e. stays below
`2^16`; for huge windows the wrap makes `getValue` read a wrong, though
in-bounds, slot — see the counterexample). -/
theorem claim_C8_getValue_oldest {s : RunningAverage} (h : Reachable s)
    {p : Nat} (hofs : p + s._index < U) :
    getValue s p =
      if p < s._count then (logicalWindow s).getD p 0 else 0 := by
  have hinv := reach_inv h
  obtain ⟨⟨hlen, _, _, _, _, _, _⟩, ⟨hws, hw1, hcw⟩, ⟨hlt, heq⟩, _⟩ := hinv
  by_cases hc : s._count = 0
  · rw [getValue, if_pos hc, if_neg (by omega)]
  · by_cases hp : s._count ≤ p
    · rw [getValue, if_neg hc, if_pos hp, if_neg (by omega)]
    · rw [if_pos (by omega), getValue, if_neg hc, if_neg hp]
      have hcount_len : s._count ≤ s._array.length := by omega
      have hlen_take : (s._array.take s._count).length = s._count := by
        rw [List.length_take]
        omega
      rw [logicalWindow, rotate_getD _ _ _ (by rw [hlen_take]; omega), hlen_take]
      rw [getD_take _ (Nat.mod_lt _ (by omega))]
      congr 1
      rw [getValuePos]
      have hmod : (p + s._index) % U = p + s._index := Nat.mod_eq_of_lt hofs
      rw [hmod]
      have hic : s._index ≤ s._count :=
        index_le_count (reach_inv h) hc
      rcases Nat.lt_or_ge (p + s._index) s._count with hlt2 | hge2
      · rw [if_neg (by omega), Nat.mod_eq_of_lt hlt2]
      · rw [if_pos (by omega), Nat.mod_eq_sub_mod hge2,
          Nat.mod_eq_of_lt (by omega)]

lemma reach_addList {s : RunningAverage} (h : Reachable s) :
    ∀ vs : List Nat, (∀ v ∈ vs, v < U) → Reachable (addList s vs) := by
  intro vs
  induction vs generalizing s with
  | nil => intro _; exact h
  | cons v rest ih =>
    intro hmem
    have hstep : addList s (v :: rest) = addList (addValue s v) rest := rfl
    rw [hstep]
    exact ih (Reachable.add v h (hmem v (by simp)))
      (fun w hw => hmem w (by simp [hw]))

lemma take_succ_set_self (l : List Nat) (i : Nat) (v : Nat)
    (h : i < l.length) : (l.set i v).take (i + 1) = l.take i ++ [v] := by
  rw [List.set_eq_take_append_cons_drop, if_pos h,
    List.take_append_eq_append_take]
  have h1 : (l.take i).length = i := by
    rw [List.length_take]
    omega
  rw [List.take_of_length_le (by omega), h1]
  have h2 : i + 1 - i = 1 := by omega
  rw [h2]
  rfl

/-- Adding a list of samples to a full buffer whose window spans the whole
capacity, without the cursor reaching the wrap point: the samples land in
consecutive slots starting at the cursor, which advances by their
number; count, window and capacity are unchanged. -/
lemma addList_full_no_wrap :
    ∀ (vs : List Nat) (s : RunningAverage),
      s._count = s._partialSize → s._partialSize = s._size →
      s._array.length = s._size → s._size < U →
      s._index + vs.length < s._partialSize →
      (addList s vs)._array =
          s._array.take s._index ++ vs ++
            s._array.drop (s._index + vs.length) ∧
        (addList s vs)._index = s._index + vs.length ∧
        (addList s vs)._count = s._count ∧
        (addList s vs)._partialSize = s._partialSize ∧
        (addList s vs)._size = s._size := by
  intro vs
  induction vs with
  | nil =>
    intro s h1 h2 h3 h4 h5
    refine ⟨?_, by simp [addList], by simp [addList], rfl, rfl⟩
    show s._array = _
    simp
  | cons v rest ih =>
    intro s h1 h2 h3 h4 h5
    rw [List.length_cons] at h5
    have hstep : addList s (v :: rest) = addList (addValue s v) rest := rfl
    have hidx1 : (addValue s v)._index = s._index + 1 := by
      rw [addValue_index, Nat.mod_eq_of_lt (by omega), if_neg (by omega)]
    have hcnt1 : (addValue s v)._count = s._count := by
      rw [addValue_count, if_neg (by omega)]
    have hIH := ih (addValue s v)
      (by rw [hcnt1, addValue_psize]; exact h1)
      (by rw [addValue_psize, addValue_size]; exact h2)
      (by rw [addValue_array, addValue_size, List.length_set]; exact h3)
      (by rw [addValue_size]; exact h4)
      (by rw [hidx1, addValue_psize]; omega)
    obtain ⟨ha, hi, hc, hp, hs⟩ := hIH
    have hil : s._index < s._array.length := by omega
    refine ⟨?_, ?_, ?_, ?_, ?_⟩
    · rw [hstep, ha, hidx1, addValue_array,
        take_succ_set_self _ _ _ hil,
        List.drop_set_of_lt _ _ (show s._index < s._index + 1 + rest.length
          by omega)]
      have h6 : s._index + 1 + rest.length = s._index + (rest.length + 1) := by
        omega
      rw [h6, List.length_cons]
      simp
    · rw [hstep, hi, hidx1, List.length_cons]
      omega
    · rw [hstep, hc, hcnt1]
    · rw [hstep, hp, addValue_psize]
    · rw [hstep, hs, addValue_size]

lemma mkRA_size (n : Nat) : (mkRA n)._size = n := rfl

lemma mkRA_psize (n : Nat) : (mkRA n)._partialSize = n := rfl

lemma fillZeroState_eq : fillZeroState =
    { _size := 40001, _count := 40001, _index := 0, _partialSize := 40001,
      _sum := 0, _array := List.replicate 40001 0, _min := 0,
      _max := 0 } := by
  have hconf : ConfigOk (mkRA 40001) :=
    ⟨le_refl _, fun _ => by rw [mkRA_psize]; decide,
      by rw [mkRA_size]; decide, by rw [mkRA_psize]; decide⟩
  have hif : (if (mkRA 40001)._partialSize < 40001
      then (mkRA 40001)._partialSize else 40001) = 40001 := by
    rw [mkRA_psize, if_neg (lt_irrefl 40001)]
  have hfv : fillZeroState = addN (clear (mkRA 40001)) 0
      (if (mkRA 40001)._partialSize < 40001
        then (mkRA 40001)._partialSize else 40001) := rfl
  rw [hfv, hif,
    addN_fill_closed hconf 0 (by decide) 40001 (by rw [mkRA_psize])]
  apply RunningAverage.ext
  · rfl
  · rfl
  · show (if 40001 = (mkRA 40001)._partialSize then 0 else 40001) = 0
    rw [mkRA_psize, if_pos rfl]
  · rfl
  · show 0 * 40001 % U = 0
    rw [Nat.zero_mul, Nat.zero_mod]
  · show List.replicate 40001 0 ++
        List.replicate ((mkRA 40001)._size - 40001) 0 =
      List.replicate 40001 0
    rw [mkRA_size, Nat.sub_self]
    rw [List.replicate_zero, List.append_nil]
  · show (if (40001 : Nat) = 0 then 0 else 0) = 0
    rw [ite_self]
  · show (if (40001 : Nat) = 0 then 0 else 0) = 0
    rw [ite_self]

lemma altList_length (m : Nat) : (altList m).length = m := by
  rw [altList, List.length_map, List.length_range]

lemma altList_getD {m j : Nat} (h : j < m) :
    (altList m).getD j 0 = j % 2 := by
  have h2 : j < ((List.range m).map (fun k => k % 2)).length := by
    rw [List.length_map, List.length_range]
    exact h
  have h3 : (altList m).getD j 0 =
      ((List.range m).map (fun k => k % 2)).getD j 0 := rfl
  rw [h3, List.getD_eq_getElem _ _ h2, List.getElem_map,
    List.getElem_range]

lemma bigState_fields :
    bigState._array = altList 30000 ++ List.replicate 10001 0 ∧
      bigState._index = 30000 ∧ bigState._count = 40001 ∧
      bigState._partialSize = 40001 ∧ bigState._size = 40001 := by
  have hfz := fillZeroState_eq
  have h := addList_full_no_wrap (altList 30000) fillZeroState
    (by rw [hfz]) (by rw [hfz])
    (by rw [hfz]
        show (List.replicate 40001 (0 : Nat)).length = 40001
        rw [List.length_replicate])
    (by rw [hfz]
        show (40001 : Nat) < U
        decide)
    (by rw [hfz, altList_length]
        show (0 : Nat) + 30000 < 40001
        decide)
  obtain ⟨ha, hi, hc, hp, hs⟩ := h
  refine ⟨?_, ?_, ?_, ?_, ?_⟩
  · show (addList fillZeroState (altList 30000))._array = _
    rw [ha, altList_length, hfz]
    show List.take 0 (List.replicate 40001 (0 : Nat)) ++ altList 30000 ++
        List.drop (0 + 30000) (List.replicate 40001 0) =
      altList 30000 ++ List.replicate 10001 0
    rw [List.take_zero, Nat.zero_add, List.drop_replicate, List.nil_append]
  · show (addList fillZeroState (altList 30000))._index = 30000
    rw [hi, altList_length, hfz]
  · show (addList fillZeroState (altList 30000))._count = 40001
    rw [hc, hfz]
  · show (addList fillZeroState (altList 30000))._partialSize = 40001
    rw [hp, hfz]
  · show (addList fillZeroState (altList 30000))._size = 40001
    rw [hs, hfz]

/-- Claim C8 (counterexample to the claim as stated): in the reachable
state `bigState` (window 40001, cursor 30000), position 36000 is in
range, but the `uint16_t` offset 36000 + 30000 wraps to 464, so
`getValue` returns slot 464 (sample 0) instead of the 36000-th oldest
element of the window (sample 1). -/
theorem claim_C8_counterexample :
    Reachable bigState ∧ 36000 < bigState._count ∧
      getValue bigState 36000 = 0 ∧
      (logicalWindow bigState).getD 36000 0 = 1 ∧ (0 : Nat) ≠ 1 := by
  obtain ⟨ha, hi, hc, hp, hs⟩ := bigState_fields
  have harrlen : bigState._array.length = 40001 := by
    rw [ha, List.length_append, altList_length, List.length_replicate]
  have hreach : Reachable bigState := by
    apply reach_addList (Reachable.fill 0 40001
      (Reachable.mk 40001 (by decide)) (by decide) (by decide))
    intro v hv
    have hv2 : v ∈ (List.range 30000).map (fun k => k % 2) := hv
    rcases List.mem_map.mp hv2 with ⟨k, _, hk⟩
    have hk2 : k % 2 < 2 := Nat.mod_lt _ (by decide)
    have h2U : (2 : Nat) < U := by decide
    omega
  refine ⟨hreach, by omega, ?_, ?_, by decide⟩
  · rw [getValue, if_neg (by omega), if_neg (by omega)]
    have hpos : getValuePos bigState 36000 = 464 := by
      simp only [getValuePos, hi, hc]
      norm_num [U]
    rw [hpos, ha,
      List.getD_append (altList 30000) (List.replicate 10001 0) 0 464
        (by rw [altList_length]; decide),
      altList_getD (by decide)]
  · rw [logicalWindow, hc, hi,
      List.take_of_length_le (by omega),
      rotate_getD _ _ _ (by omega), harrlen]
    have hmod : (36000 + 30000) % 40001 = 25999 := by decide
    rw [hmod, ha,
      List.getD_append (altList 30000) (List.replicate 10001 0) 0 25999
        (by rw [altList_length]; decide),
      altList_getD (by decide)]

/-- Witness for C8's amended theorem at the concrete state `sAddFour`:
position 0 yields the oldest element of the logical window. -/
theorem claim_C8_witness :
    getValue sAddFour 0 =
      if 0 < sAddFour._count then (logicalWindow sAddFour).getD 0 0 else 0 :=
  claim_C8_getValue_oldest
    (Reachable.add 4 (Reachable.add 3 (Reachable.add 2 (Reachable.add 1
      (Reachable.mk 3 (by decide)) (by decide)) (by decide)) (by decide))
      (by decide))
    (by decide)

lemma take_set_comm (l : List Nat) (c i : Nat) (v : Nat) (hic : i < c) :
    (l.set i v).take c = (l.take c).set i v := by
  rcases Nat.lt_or_ge i l.length with hil | hil
  · apply List.ext_getElem
    · rw [List.length_take, List.length_set, List.length_set,
        List.length_take]
    · intro k h1 h2
      rw [List.getElem_take, List.getElem_set, List.getElem_set,
        List.getElem_take]
  · rw [List.set_eq_of_length_le hil,
      List.set_eq_of_length_le (by rw [List.length_take]; omega)]

/-- FIFO law of the logical window: `addValue` appends the new sample at
the newest end, dropping the oldest sample once the buffer is full — so
`logicalWindow` lists the current samples oldest first. -/
lemma logicalWindow_addValue {s : RunningAverage} (h : RAInv s) (v : Nat)
    (hP : s._partialSize ≠ 0) :
    logicalWindow (addValue s v) =
      if s._count < s._partialSize then logicalWindow s ++ [v]
      else (logicalWindow s).drop 1 ++ [v] := by
  obtain ⟨⟨hlen, hszU, hwU, hiU, _, _, _⟩, ⟨hws, hw1, hcw⟩, ⟨hlt, heq⟩,
    ⟨hzero, _, _, _⟩⟩ := h
  by_cases hc : s._count < s._partialSize
  · -- growing phase: the new sample lands at position `_count`
    rw [if_pos hc]
    have hieq := hlt hc
    have hcl : s._count < s._array.length := by omega
    have hcount2 : (addValue s v)._count = s._count + 1 := by
      rw [addValue_count, if_pos hc]
    rw [logicalWindow, logicalWindow, hcount2, addValue_array, hieq,
      take_succ_set_self _ _ _ hcl, addValue_index, hieq]
    have hlen2 : (s._array.take s._count ++ [v]).length = s._count + 1 := by
      rw [List.length_append, List.length_take]
      simp
      omega
    have hlen3 : (s._array.take s._count).length = s._count := by
      rw [List.length_take]
      omega
    have hrot2 : (s._array.take s._count).rotate s._count =
        s._array.take s._count := by
      have h2 := List.rotate_length (s._array.take s._count)
      rwa [hlen3] at h2
    rw [hrot2, Nat.mod_eq_of_lt (show s._count + 1 < U by omega)]
    by_cases hfin : s._count + 1 = s._partialSize
    · rw [if_pos hfin, List.rotate_zero]
    · rw [if_neg hfin]
      have h4 := List.rotate_length (s._array.take s._count ++ [v])
      rw [hlen2] at h4
      exact h4
  · -- full phase: overwrite the oldest sample and advance the cursor
    rw [if_neg hc]
    have hceq : s._count = s._partialSize := by omega
    have hilt : s._index < s._count := by
      have := heq hceq hP
      omega
    have hcl : s._count ≤ s._array.length := by omega
    have hcount2 : (addValue s v)._count = s._count := by
      rw [addValue_count, if_neg hc]
    have hidx2 : (addValue s v)._index =
        if s._index + 1 = s._partialSize then 0 else s._index + 1 := by
      rw [addValue_index, Nat.mod_eq_of_lt (show s._index + 1 < U by omega)]
    have hlen_take : (s._array.take s._count).length = s._count := by
      rw [List.length_take]
      omega
    have hlen_set : ((s._array.take s._count).set s._index v).length =
        s._count := by
      rw [List.length_set, hlen_take]
    rw [logicalWindow, logicalWindow, hcount2, addValue_array, hidx2,
      take_set_comm _ _ _ _ hilt]
    -- the cursor update is a rotation by `_index + 1` either way
    have hrot_unif : ((s._array.take s._count).set s._index v).rotate
        (if s._index + 1 = s._partialSize then 0 else s._index + 1) =
        ((s._array.take s._count).set s._index v).rotate (s._index + 1) := by
      by_cases hfin : s._index + 1 = s._partialSize
      · rw [if_pos hfin, List.rotate_zero]
        have h2 := List.rotate_length ((s._array.take s._count).set s._index v)
        rw [hlen_set] at h2
        have h3 : s._index + 1 = s._count := by omega
        rw [h3, h2]
      · rw [if_neg hfin]
    rw [hrot_unif,
      List.rotate_eq_drop_append_take (by rw [hlen_set]; omega),
      List.rotate_eq_drop_append_take (by rw [hlen_take]; omega),
      List.drop_set_of_lt _ _ (Nat.lt_succ_self _),
      take_succ_set_self _ _ _ (by rw [hlen_take]; omega),
      List.drop_append_eq_append_drop]
    have hd1 : List.drop 1 (List.drop s._index (s._array.take s._count)) =
        List.drop (s._index + 1) (s._array.take s._count) := by
      rw [List.drop_drop]
    have hd2 : 1 - (List.drop s._index (s._array.take s._count)).length = 0 := by
      rw [List.length_drop, hlen_take]
      omega
    rw [hd1, hd2, List.drop_zero, List.append_assoc]
